import Mathlib

/-!
Verification development for the `audio2tones` converter
(`src/audio2tones.py`).  The program turns a decoded waveform into a
run-length-compressed list of `(duration, frequencyBucket, loudnessLevel)`
tone events for an ATmega328P.

The embedding below mirrors the Python source:

* `compress_pwm_audio` (source lines 56-81) is the run-length encoder on
  integer windows; it is modelled computably over `ℤ`.
* The numeric pipeline of `main` (channel merge, FFT analysis, geometric
  frequency binning, logarithmic loudness normalisation) works on floating
  point numbers; it is idealised over `ℝ`, with numpy's documented edge
  behaviour (zero endpoints in `geomspace`, the monotonicity check of
  `digitize`, the two-point clamp of `interp`, truncation of `astype`)
  reproduced explicitly.
* `main` allocates `frequencies` and `modules` with
  `np.empty(resampled_data_size + 1)` and only ever writes the first
  `resampled_data_size` cells; the value of the last, uninitialised cell is
  made explicit as the `junkF` / `junkM` parameters of the pipeline model.
-/

namespace Audio2Tones

/-! ## Hardware profile (the `mcus["ATmega328P"]` table, source lines 12-24) -/

/-- Achievable PWM frequencies, `[16e6/(x*256) for x in [8, 32, 64, 128, 256, 1024]]`. -/
noncomputable def available_freqs : List ℝ :=
  [8, 32, 64, 128, 256, 1024].map fun x => 16000000 / (x * 256)

/-- Maximum duty-cycle value, `255 - 1`. -/
def pwm_duty_cycle_max_value : ℤ := 255 - 1

/-- Playback sampling rate, `int(10e3)`. -/
def playback_sampling_rate : ℕ := 10000

/-! ## Run-length encoder: `compress_pwm_audio`, source lines 56-81.

The Python loop walks `duration[1:]`, incrementing `compressed_chunks`
before testing whether the `(frequency, module)` pair changed; on a change
it closes the previous run and on loop exit it flushes the current run with
the *current* value of `compressed_chunks` (which at that point counts one
fewer window than the final run holds).  `rleGo` is that loop with the
state (`last_freq`, `last_module`, `compressed_chunks`) as arguments; the
zip of the three result lists interleaves exactly as the Python zip does. -/

def rleGo (d : ℤ) : ℤ → ℤ → ℕ → List (ℤ × ℤ) → List (ℤ × ℤ × ℤ)
  | lastF, lastM, cc, [] => [(d * (cc : ℤ), lastF, lastM)]
  | lastF, lastM, cc, (f, m) :: rest =>
    if f ≠ lastF ∨ m ≠ lastM then
      (d * ((cc : ℤ) + 1), lastF, lastM) :: rleGo d f m 0 rest
    else
      rleGo d lastF lastM (cc + 1) rest

/-- Model of `compress_pwm_audio(duration, frequency, modules)`.  The three
arguments are the parallel per-window arrays; `default_duration` is
`round(duration[0])`, the identity here because `durations` is an integer
array in `main`.  The loop length is `len(duration) - 1` and the loop reads
`frequency[i]`, `modules[i]` at the same indices (Python raises IndexError
when those arrays are shorter; all theorems below assume the equal lengths
`main` supplies, under which the `take` is the identity).  Python also
raises IndexError on empty inputs; that case returns `[]` here and is never
reached from `main`. -/
def compress_pwm_audio (duration frequency modules : List ℤ) : List (ℤ × ℤ × ℤ) :=
  match duration, frequency, modules with
  | d :: ds, f :: fs, m :: ms => rleGo d f m 0 ((fs.zip ms).take ds.length)
  | _, _, _ => []

/-- Sum of the `duration` fields of a tone-event list. -/
def totalDuration (events : List (ℤ × ℤ × ℤ)) : ℤ :=
  (events.map fun e => e.1).sum

/-- Expand each tone event back into `duration / baseDuration` repetitions
of its `(bucket, level)` pair (the round-trip direction of the spec). -/
def expandEvents (base : ℤ) (events : List (ℤ × ℤ × ℤ)) : List (ℤ × ℤ) :=
  events.flatMap fun e => List.replicate (e.1 / base).toNat (e.2.1, e.2.2)

/-! ## The real-valued pipeline of `main`

The numeric stages are idealised over `ℝ`; the numpy edge behaviour each
model reproduces is documented on the definition. -/

noncomputable section

/-- Maximum of a list, as `np.max` / `.max()` computes it on a nonempty
array (numpy raises on an empty array; the `0` returned here for `[]` is
never reached — every use below is on a nonempty list). -/
def listMax : List ℝ → ℝ
  | [] => 0
  | [x] => x
  | x :: y :: xs => max x (listMax (y :: xs))

/-- Minimum of a list (`np.min` / `.min()`), same conventions as `listMax`. -/
def listMin : List ℝ → ℝ
  | [] => 0
  | [x] => x
  | x :: y :: xs => min x (listMin (y :: xs))

/-- Truncation toward zero: the C cast behind `.astype(np.int16)`.  Every
value this program casts is provably inside `[0, 254]`, so int16 overflow
(undefined behaviour in the C cast) does not arise and is not modelled. -/
def toInt16 (x : ℝ) : ℤ := if 0 ≤ x then ⌊x⌋ else -⌊-x⌋

/-- Python's built-in `round`: nearest integer, ties to even. -/
def pyRound (x : ℝ) : ℤ :=
  if x - ⌊x⌋ < 1 / 2 then ⌊x⌋
  else if 1 / 2 < x - ⌊x⌋ then ⌊x⌋ + 1
  else if Even ⌊x⌋ then ⌊x⌋ else ⌊x⌋ + 1

/-- `np.interp(x, (x0, x1), (f0, f1))` with two sample points, following
the compiled implementation: values left of `x0` clamp to `f0`, values at
or right of `x1` give `f1` (this branch is exactly why the degenerate case
`x0 = x1` yields `f1` rather than an error or a division), interior values
interpolate linearly. -/
def npInterp2 (x x0 x1 f0 f1 : ℝ) : ℝ :=
  if x < x0 then f0
  else if x1 ≤ x then f1
  else f0 + (f1 - f0) * (x - x0) / (x1 - x0)

/-- Number of bins `b` with `b ≤ x`: what `np.digitize(·, bins)` returns
per value for ascending bins (`np.searchsorted(bins, x, side='right')`). -/
def countLe (bins : List ℝ) (x : ℝ) : ℕ :=
  match bins with
  | [] => 0
  | b :: bs => (if b ≤ x then 1 else 0) + countLe bs x

/-- Number of bins `b` with `x < b`: what `np.digitize(·, bins)` returns
per value for descending bins
(`len(bins) - np.searchsorted(bins[::-1], x, side='right')`). -/
def countGt (bins : List ℝ) (x : ℝ) : ℕ :=
  match bins with
  | [] => 0
  | b :: bs => (if x < b then 1 else 0) + countGt bs x

/-- `np.digitize(xs, bins, right=False)`: requires monotonic bins
(otherwise ValueError); ascending bins give, per value, the number of bins
`≤` the value, descending bins the number of bins `>` it. -/
def npDigitize (xs bins : List ℝ) : Except String (List ℕ) :=
  if List.Chain' (fun a b => a ≤ b) bins then .ok (xs.map fun x => countLe bins x)
  else if List.Chain' (fun a b => b ≤ a) bins then .ok (xs.map fun x => countGt bins x)
  else .error "bins must be monotonically increasing or decreasing"

/-- `np.geomspace(start, stop, num)`:
`result[j] = start * (stop/start) ^ (j/(num-1))`.  numpy raises ValueError
when an endpoint is zero; for endpoints of mixed signs it emits NaN edges
(`log10` of a negative), which the subsequent `np.digitize` monotonicity
check rejects — both failure modes are collapsed into the error case here,
so the quantizer stage fails exactly when the Python stage does. -/
def npGeomspace (start stop : ℝ) (num : ℕ) : Except String (List ℝ) :=
  if start * stop ≤ 0 then .error "Geometric sequence cannot include zero"
  else .ok ((List.range num).map fun j : ℕ =>
    start * (stop / start) ^ ((j : ℝ) / ((num : ℝ) - 1)))

/-- The frequency quantizer, source lines 150-157: geometric bin edges from
`frequencies.min() + 1` to `frequencies.max()`, first edge forced to 0,
edges reversed (descending), then `np.digitize`.  An empty input would make
`.min()` raise in numpy; modelled as the error case (never reached:
`main`'s array always contains at least the uninitialised cell). -/
def quantize (frequencies : List ℝ) : Except String (List ℕ) :=
  match frequencies with
  | [] => .error "zero-size array to reduction operation minimum which has no identity"
  | _ :: _ =>
    (npGeomspace (listMin frequencies + 1) (listMax frequencies)
        available_freqs.length).bind fun bins0 =>
      npDigitize frequencies (bins0.set 0 0).reverse

/-- `np.digitize(v, [0, 255], right=True)`: the number of bins strictly
below `v`. -/
def npDigitizeRight01 (v : ℤ) : ℤ :=
  (if 0 < v then 1 else 0) + (if 255 < v then 1 else 0)

/-- The loudness normalizer, source lines 159-172: logarithmic dynamic
range compression `log(modules + 1)`, `np.interp` rescale from
`[0, compressed.max()]` to `[0, pwm_duty_cycle_max_value]`, cast to int16;
when `flatten_volume` is set the result is re-digitized against `[0, 255]`
(right-inclusive) and multiplied by 255. -/
def normalize (modules : List ℝ) (flatten_volume : Bool) : List ℤ :=
  let compressed := modules.map fun m => Real.log (m + 1)
  let normalized := compressed.map fun c =>
    toInt16 (npInterp2 c 0 (listMax compressed) 0 (pwm_duty_cycle_max_value : ℝ))
  if flatten_volume then normalized.map fun v => npDigitizeRight01 v * 255
  else normalized

/-- Channel reducer, source lines 116-119:
`np.maximum(np.amax(samples, axis=0), np.zeros(len(samples[0])))` — per
sample index, the maximum across channels, clamped below at zero. -/
def merge_channels (samples : List (List ℝ)) : List ℝ :=
  (List.range (samples.headD []).length).map fun i : ℕ =>
    max (listMax (samples.map fun ch => ch.getD i 0)) 0

/-- The discrete Fourier transform as `scipy.fft.fft` computes it:
`X_k = Σ_n x_n · exp(-2πi·k·n/L)` for `k < L = len(x)`. -/
def npFFT (x : List ℝ) : List ℂ :=
  (List.range x.length).map fun k : ℕ =>
    ((List.range x.length).map fun n : ℕ =>
      ((x.getD n 0 : ℝ) : ℂ) *
        Complex.exp (-(2 * (Real.pi : ℂ) * Complex.I * (k : ℂ) * (n : ℂ)) /
          (x.length : ℂ))).sum

/-- `scipy.fft.fftfreq(n, 1/sr)`: frequency `j·sr/n` for `j ≤ (n-1)/2`,
and `(j-n)·sr/n` (negative) for the remaining indices. -/
def fftfreq (n : ℕ) (sr : ℝ) : List ℝ :=
  (List.range n).map fun j : ℕ =>
    if j ≤ (n - 1) / 2 then (j : ℝ) * sr / n else ((j : ℝ) - n) * sr / n

/-- First index whose value reaches `top` (`np.argmax` applied with `top`
the maximum of the list: the first maximal index). -/
def argmaxAux (top : ℝ) : List ℝ → ℕ
  | [] => 0
  | x :: xs => if top ≤ x then 0 else argmaxAux top xs + 1

/-- `get_dominant_freq_and_module`, source lines 41-53: FFT of the chunk,
moduli, maximum modulus, and the frequency of the first maximal bin read
off the `fftfreq(round(fourier_window_size), 1/sampling_rate)` axis.  That
axis has `round(fourier_window_size)` entries while the chunk has its own
integer length, so the lookup can run off the end — numpy would raise
IndexError there, modelled as the error case (as is an empty chunk, on
which `np.max` raises). -/
def get_dominant_freq_and_module (window_chunk : List ℝ)
    (sampling_rate fourier_window_size : ℝ) : Except String (ℝ × ℝ) :=
  let modules := (npFFT window_chunk).map Complex.abs
  match modules with
  | [] => .error "zero-size array to reduction operation maximum which has no identity"
  | _ :: _ =>
    let freqs := fftfreq (pyRound fourier_window_size).toNat sampling_rate
    match freqs[argmaxAux (listMax modules) modules]? with
    | some dominant_freq => .ok (dominant_freq, listMax modules)
    | none => .error "index out of bounds"

/-- `np.array_split(l, n)`: `l.length % n` chunks of size
`l.length / n + 1` followed by chunks of size `l.length / n` (numpy raises
when `n = 0`; that guard lives in `chunksOf`). -/
def npArraySplit (l : List ℝ) (n : ℕ) : List (List ℝ) :=
  (List.range n).map fun i : ℕ =>
    (l.drop (i * (l.length / n) + min i (l.length % n))).take
      (if i < l.length % n then l.length / n + 1 else l.length / n)

/-- Number of analysis windows:
`round(duration * playback_sampling_rate)` with
`duration = len(samples[0]) / sampling_rate` (source line 122). -/
def windowCount (samples : List (List ℝ)) (sampling_rate : ℝ) : ℕ :=
  (pyRound (((samples.headD []).length : ℝ) / sampling_rate *
    (playback_sampling_rate : ℝ))).toNat

/-- `np.array_split(merged_channels, resampled_data_size)` of `main`
(source line 138). -/
def chunksOf (samples : List (List ℝ)) (sampling_rate : ℝ) :
    Except String (List (List ℝ)) :=
  if windowCount samples sampling_rate = 0 then
    .error "number sections must be larger than 0."
  else
    .ok (npArraySplit (merge_channels samples) (windowCount samples sampling_rate))

/-- The spectral analyzer loop of `main` (source lines 135-148): one
`(dominant_freq, max_module)` pair per chunk, in window order. -/
def framesOf (samples : List (List ℝ)) (sampling_rate : ℝ) :
    Except String (List (ℝ × ℝ)) :=
  (chunksOf samples sampling_rate).bind fun chunks =>
    chunks.mapM fun chunk =>
      get_dominant_freq_and_module chunk sampling_rate
        (sampling_rate / (playback_sampling_rate : ℝ))

/-- The `frequencies` array exactly as the quantizer consumes it: `main`
allocates `np.empty(resampled_data_size + 1)` and the analyzer loop writes
only the first `resampled_data_size` cells, so downstream reads the
computed dominant frequencies followed by one uninitialised cell,
`junkF`. -/
def consumedFreqs (samples : List (List ℝ)) (sampling_rate junkF : ℝ) :
    Except String (List ℝ) :=
  (framesOf samples sampling_rate).map fun frames =>
    frames.map Prod.fst ++ [junkF]

/-- The `modules` array exactly as the normalizer consumes it (same
`np.empty` pattern as `consumedFreqs`). -/
def consumedMods (samples : List (List ℝ)) (sampling_rate junkM : ℝ) :
    Except String (List ℝ) :=
  (framesOf samples sampling_rate).map fun frames =>
    frames.map Prod.snd ++ [junkM]

/-- The processing pipeline of `main` between file load and serialisation
(source lines 114-175).  `durations` is
`np.full(resampled_data_size + 1, 1/playback_rate * 10e6, np.int16)`, i.e.
`N + 1` copies of `10e6 / 10e3 = 1000`.  The contents of the two
uninitialised `np.empty` cells are the explicit parameters `junkF` and
`junkM`; the stages run (and fail) in source order: quantizer first, then
normalizer and run-length encoder. -/
def main_pipeline (samples : List (List ℝ)) (sampling_rate : ℝ)
    (flatten_volume : Bool) (junkF junkM : ℝ) :
    Except String (List (ℤ × ℤ × ℤ)) :=
  (consumedFreqs samples sampling_rate junkF).bind fun frequencies =>
  (consumedMods samples sampling_rate junkM).bind fun modules =>
  (quantize frequencies).bind fun freq_indexes =>
    .ok (compress_pwm_audio
      (List.replicate (windowCount samples sampling_rate + 1) 1000)
      (freq_indexes.map fun b => (b : ℤ))
      (normalize modules flatten_volume))

end

/-! ## Lemmas about the run-length encoder -/

theorem rleGo_ne_nil (d lastF lastM : ℤ) (cc : ℕ) (pairs : List (ℤ × ℤ)) :
    rleGo d lastF lastM cc pairs ≠ [] := by
  induction pairs generalizing lastF lastM cc with
  | nil => simp [rleGo]
  | cons p rest ih =>
    obtain ⟨f, m⟩ := p
    rw [rleGo]
    split
    · simp
    · exact ih lastF lastM (cc + 1)

theorem totalDuration_rleGo (d lastF lastM : ℤ) (cc : ℕ) (pairs : List (ℤ × ℤ)) :
    totalDuration (rleGo d lastF lastM cc pairs) = d * (cc + pairs.length) := by
  induction pairs generalizing lastF lastM cc with
  | nil => simp [rleGo, totalDuration]
  | cons p rest ih =>
    obtain ⟨f, m⟩ := p
    rw [rleGo]
    split
    · have h := ih f m 0
      simp only [totalDuration, List.map_cons, List.sum_cons] at h ⊢
      rw [h]
      simp only [List.length_cons]
      push_cast
      ring
    · have h := ih lastF lastM (cc + 1)
      rw [h]
      simp only [List.length_cons]
      push_cast
      ring

theorem expandEvents_rleGo (d lastF lastM : ℤ) (hd : 0 < d) (cc : ℕ)
    (pairs : List (ℤ × ℤ)) :
    expandEvents d (rleGo d lastF lastM cc pairs) =
      (List.replicate (cc + 1) (lastF, lastM) ++ pairs).dropLast := by
  induction pairs generalizing lastF lastM cc with
  | nil =>
    rw [rleGo]
    simp only [expandEvents, List.flatMap_cons, List.flatMap_nil, List.append_nil,
      List.append_nil, List.dropLast_replicate]
    rw [Int.mul_ediv_cancel_left _ (ne_of_gt hd), Int.toNat_natCast]
    simp
  | cons p rest ih =>
    obtain ⟨f, m⟩ := p
    rw [rleGo]
    split
    · have h := ih f m 0
      simp only [expandEvents, List.flatMap_cons] at h ⊢
      rw [h]
      rw [Int.mul_ediv_cancel_left _ (ne_of_gt hd)]
      have hrep : ((cc : ℤ) + 1).toNat = cc + 1 := by omega
      rw [hrep, List.dropLast_append_cons]
      simp
    · rename_i hcond
      have hf : lastF = f ∧ lastM = m := by
        by_contra hc
        exact hcond (by tauto)
      obtain ⟨hf1, hf2⟩ := hf
      subst hf1; subst hf2
      rw [ih lastF lastM (cc + 1)]
      have : List.replicate (cc + 1 + 1) (lastF, lastM) ++ rest =
          List.replicate (cc + 1) (lastF, lastM) ++ ((lastF, lastM) :: rest) := by
        rw [List.replicate_succ' (cc + 1) (lastF, lastM)]
        simp
      rw [this]

theorem head_rleGo (d lastF lastM : ℤ) (cc : ℕ) (pairs : List (ℤ × ℤ))
    (hne : pairs ≠ []) :
    ∃ k : ℕ, cc + 1 ≤ k ∧
      (rleGo d lastF lastM cc pairs).head? = some (d * (k : ℤ), lastF, lastM) := by
  induction pairs generalizing lastF lastM cc with
  | nil => exact absurd rfl hne
  | cons p rest ih =>
    obtain ⟨f, m⟩ := p
    rw [rleGo]
    split
    · exact ⟨cc + 1, le_refl _, by push_cast; simp⟩
    · cases rest with
      | nil =>
        refine ⟨cc + 1, le_refl _, ?_⟩
        rw [rleGo]
        push_cast
        simp
      | cons q rest2 =>
        obtain ⟨k, hk, hh⟩ := ih lastF lastM (cc + 1) (by simp)
        exact ⟨k, by omega, hh⟩

theorem getLast_rleGo (d : ℤ) (ps : List (ℤ × ℤ)) (p : ℤ × ℤ) :
    ∀ (lastF lastM : ℤ) (cc : ℕ),
      p ≠ ((lastF, lastM) :: ps).getLast (List.cons_ne_nil _ _) →
      (rleGo d lastF lastM cc (ps ++ [p])).getLast? = some (0, p.1, p.2) := by
  induction ps with
  | nil =>
    intro lastF lastM cc hne
    simp only [List.getLast_singleton] at hne
    obtain ⟨pf, pm⟩ := p
    rw [List.nil_append, rleGo]
    rw [if_pos ?_]
    · rw [rleGo]
      simp
    · by_contra hc
      push_neg at hc
      exact hne (by simp [Prod.ext_iff]; exact ⟨hc.1, hc.2⟩)
  | cons q ps2 ih =>
    intro lastF lastM cc hne
    have hlast : ((lastF, lastM) :: q :: ps2).getLast (List.cons_ne_nil _ _) =
        (q :: ps2).getLast (List.cons_ne_nil _ _) :=
      List.getLast_cons (List.cons_ne_nil _ _)
    rw [hlast] at hne
    obtain ⟨qf, qm⟩ := q
    rw [List.cons_append, rleGo]
    split
    · have htail := ih qf qm 0 hne
      obtain ⟨x, xs, hxx⟩ := List.exists_cons_of_ne_nil (rleGo_ne_nil d qf qm 0 (ps2 ++ [p]))
      rw [hxx] at htail ⊢
      rw [List.getLast?_cons_cons]
      exact htail
    · rename_i hcond
      have hf : lastF = qf ∧ lastM = qm := by
        by_contra hc
        exact hcond (by tauto)
      obtain ⟨h1, h2⟩ := hf
      subst h1; subst h2
      exact ih lastF lastM (cc + 1) hne

theorem compress_cons (d f m : ℤ) (ds fs ms : List ℤ) :
    compress_pwm_audio (d :: ds) (f :: fs) (m :: ms) =
      rleGo d f m 0 ((fs.zip ms).take ds.length) := rfl

theorem zip_take_eq (ds fs ms : List ℤ) (hf : fs.length = ds.length)
    (hm : ms.length = ds.length) : (fs.zip ms).take ds.length = fs.zip ms := by
  apply List.take_of_length_le
  rw [List.length_zip, hf, hm, min_self]

/-! ## Claims C1, C2, C10: the run-length encoder -/

/-- C1, counterexample: compressing N = 2 windows with constant
`(bucket, level)` yields the single event `(10, 5, 7)`, whose total duration
10 differs from `N * baseDuration = 2 * 10`: run-length compression does
not conserve duration as claimed. -/
theorem c1_counterexample :
    totalDuration (compress_pwm_audio [10, 10] [5, 5] [7, 7]) ≠ 2 * 10 := by
  decide

/-- C1, amended: the total duration of the events produced by compressing
the `N = ds.length + 1` windows `(d :: ds, f :: fs, m :: ms)` is
`(N - 1) * baseDuration = d * ds.length` — one window's worth short of the
claimed `N * baseDuration` (`main` compensates by passing `N + 1` per-window
entries, the last of them uninitialised). -/
theorem c1_total_duration (d f m : ℤ) (ds fs ms : List ℤ)
    (hf : fs.length = ds.length) (hm : ms.length = ds.length) :
    totalDuration (compress_pwm_audio (d :: ds) (f :: fs) (m :: ms)) =
      d * (ds.length : ℤ) := by
  rw [compress_cons, totalDuration_rleGo, zip_take_eq ds fs ms hf hm]
  rw [List.length_zip, hf, hm, min_self]
  simp

/-- C1, witness: the amended statement evaluated on two windows whose pairs
differ, with base duration 10. -/
theorem c1_witness :
    ([(6 : ℤ)].length = [(10 : ℤ)].length ∧ [(7 : ℤ)].length = [(10 : ℤ)].length) ∧
    totalDuration (compress_pwm_audio [10, 10] [5, 6] [7, 7]) =
      10 * (([(10 : ℤ)].length : ℕ) : ℤ) :=
  ⟨⟨rfl, rfl⟩, c1_total_duration 10 5 7 [10] [6] [7] rfl rfl⟩

/-- C2, counterexample: a single window `(bucket, level) = (5, 7)` is
compressed to the single event `(0, 5, 7)`; expanding it yields `[]`, not
the original `[(5, 7)]`, and the (leading) event has duration zero. -/
theorem c2_counterexample :
    expandEvents 10 (compress_pwm_audio [10] [5] [7]) ≠ [(5, 7)] ∧
    (compress_pwm_audio [10] [5] [7]).head? = some (0, 5, 7) := by
  decide

/-- C2, amended: expanding the emitted events reproduces the original
per-window `(bucket, level)` sequence with its last element removed (not
the full sequence); and when there are at least two windows the first
emitted event has duration `d * k` with `k ≥ 1`, so no zero-length leading
event appears (with a single window the sole event does have duration 0,
as the counterexample shows). -/
theorem c2_roundtrip (d f m : ℤ) (ds fs ms : List ℤ)
    (hf : fs.length = ds.length) (hm : ms.length = ds.length) (hd : 0 < d) :
    expandEvents d (compress_pwm_audio (d :: ds) (f :: fs) (m :: ms)) =
      ((f, m) :: fs.zip ms).dropLast ∧
    (ds ≠ [] → ∃ k : ℕ, 1 ≤ k ∧
      (compress_pwm_audio (d :: ds) (f :: fs) (m :: ms)).head? =
        some (d * (k : ℤ), f, m)) := by
  rw [compress_cons, zip_take_eq ds fs ms hf hm]
  constructor
  · rw [expandEvents_rleGo d f m hd 0 (fs.zip ms)]
    simp
  · intro hds
    have hlen : (fs.zip ms).length = ds.length := by
      rw [List.length_zip, hf, hm, min_self]
    have hne : fs.zip ms ≠ [] := by
      intro hc
      rw [hc] at hlen
      exact hds (List.eq_nil_of_length_eq_zero hlen.symm)
    obtain ⟨k, hk, hh⟩ := head_rleGo d f m 0 (fs.zip ms) hne
    exact ⟨k, hk, hh⟩

/-- C2, witness: the amended statement evaluated on two windows whose pairs
differ, with base duration 10. -/
theorem c2_witness :
    (0 : ℤ) < 10 ∧
    (expandEvents 10 (compress_pwm_audio [10, 10] [1, 2] [0, 0]) =
        (((1 : ℤ), (0 : ℤ)) :: [(2 : ℤ)].zip [(0 : ℤ)]).dropLast ∧
      ([(10 : ℤ)] ≠ [] → ∃ k : ℕ, 1 ≤ k ∧
        (compress_pwm_audio [10, 10] [1, 2] [0, 0]).head? =
          some (10 * (k : ℤ), 1, 0))) :=
  ⟨by decide, c2_roundtrip 10 1 0 [10] [2] [0] rfl rfl (by decide)⟩

/-- C10: when the connected per-window pair sequence ends in a change (the
last window's `(bucket, level)` differs from the pair of the window before
it), the final emitted tone event is `(0, lastBucket, lastLevel)` — a
zero-length trailing event carrying the last window's pair. -/
theorem c10_trailing_zero_event (d f m : ℤ) (ds fs ms : List ℤ)
    (hf : fs.length = ds.length) (hm : ms.length = ds.length)
    (ps : List (ℤ × ℤ)) (p : ℤ × ℤ)
    (hsplit : fs.zip ms = ps ++ [p])
    (hne : p ≠ ((f, m) :: ps).getLast (List.cons_ne_nil _ _)) :
    (compress_pwm_audio (d :: ds) (f :: fs) (m :: ms)).getLast? =
      some (0, p.1, p.2) := by
  rw [compress_cons, zip_take_eq ds fs ms hf hm, hsplit]
  exact getLast_rleGo d ps p f m 0 hne

/-- C10, witness: two windows `(1,0)` then `(2,0)`; the output ends in the
zero-duration event `(0, 2, 0)`. -/
theorem c10_witness :
    ((2 : ℤ), (0 : ℤ)) ≠ [((1 : ℤ), (0 : ℤ))].getLast (List.cons_ne_nil _ _) ∧
    (compress_pwm_audio [10, 10] [1, 2] [0, 0]).getLast? = some (0, 2, 0) :=
  ⟨by decide,
    c10_trailing_zero_event 10 1 0 [10] [2] [0] rfl rfl [] (2, 0) rfl (by decide)⟩

/-! ## Small facts about the `Except` plumbing and the list extrema -/

theorem except_bind_ok {α β : Type} (a : α) (f : α → Except String β) :
    (Except.ok a : Except String α).bind f = f a := rfl

theorem except_bind_error {α β : Type} (e : String) (f : α → Except String β) :
    (Except.error e : Except String α).bind f = Except.error e := rfl

theorem except_map_ok {α β : Type} (a : α) (f : α → β) :
    (Except.ok a : Except String α).map f = Except.ok (f a) := rfl

theorem except_map_error {α β : Type} (e : String) (f : α → β) :
    (Except.error e : Except String α).map f = Except.error e := rfl

theorem listMax_cons (x : ℝ) (l : List ℝ) (h : l ≠ []) :
    listMax (x :: l) = max x (listMax l) := by
  cases l with
  | nil => exact absurd rfl h
  | cons y ys => rfl

theorem le_listMax (l : List ℝ) : ∀ x ∈ l, x ≤ listMax l := by
  induction l with
  | nil => simp
  | cons y ys ih =>
    intro x hx
    cases ys with
    | nil =>
      rw [List.mem_singleton] at hx
      subst hx
      exact le_of_eq rfl
    | cons z zs =>
      rw [listMax_cons y (z :: zs) (by simp)]
      rcases List.mem_cons.mp hx with h | h
      · subst h; exact le_max_left _ _
      · exact le_trans (ih x h) (le_max_right _ _)

theorem listMax_mem (l : List ℝ) (h : l ≠ []) : listMax l ∈ l := by
  induction l with
  | nil => exact absurd rfl h
  | cons y ys ih =>
    cases ys with
    | nil => simp [listMax]
    | cons z zs =>
      rw [listMax_cons y (z :: zs) (by simp)]
      rcases max_choice y (listMax (z :: zs)) with hc | hc
      · rw [hc]; simp
      · rw [hc]; exact List.mem_cons_of_mem _ (ih (by simp))

theorem listMax_perm {l l2 : List ℝ} (h : l.Perm l2) : listMax l = listMax l2 := by
  induction h with
  | nil => rfl
  | cons x hperm ih =>
    rename_i t1 t2
    cases t1 with
    | nil =>
      have ht2 : t2 = [] := List.length_eq_zero.mp (by rw [← hperm.length_eq]; rfl)
      subst ht2; rfl
    | cons a as =>
      have ht2 : t2 ≠ [] := by
        intro hc
        subst hc
        simpa using hperm.length_eq
      rw [listMax_cons x _ (by simp), listMax_cons x t2 ht2, ih]
  | swap x y l =>
    cases l with
    | nil => simp [listMax, max_comm]
    | cons a as =>
      show max y (max x (listMax (a :: as))) = max x (max y (listMax (a :: as)))
      exact max_left_comm _ _ _
  | trans h1 h2 ih1 ih2 => exact ih1.trans ih2

/-! ## Claim C9: channel reduction -/

/-- C9: the channel reducer is invariant under permutation of the channel
list (per-index maxima are permutation-invariant), and every merged sample
is nonnegative (it is clamped below at zero). -/
theorem c9_channel_reduction (samples samples2 : List (List ℝ))
    (hp : samples.Perm samples2)
    (hL : ∀ ch ∈ samples, ch.length = (samples.headD []).length) :
    merge_channels samples = merge_channels samples2 ∧
    ∀ v ∈ merge_channels samples, 0 ≤ v := by
  constructor
  · have hlen : (samples2.headD []).length = (samples.headD []).length := by
      cases samples2 with
      | nil =>
        have hnil : samples = [] :=
          List.length_eq_zero.mp (by rw [hp.length_eq]; rfl)
        subst hnil; rfl
      | cons c cs =>
        have hc : c ∈ samples := hp.mem_iff.mpr (by simp)
        simpa using hL c hc
    rw [merge_channels, merge_channels, hlen]
    apply List.map_congr_left
    intro i _
    congr 1
    exact listMax_perm (hp.map fun ch => ch.getD i 0)
  · intro v hv
    rw [merge_channels] at hv
    obtain ⟨i, _, rfl⟩ := List.mem_map.mp hv
    exact le_max_right _ 0

/-- C9, witness: swapping the two channels of a two-channel, two-sample
waveform leaves the merged signal unchanged, and it is nonnegative. -/
theorem c9_witness :
    ([[(1 : ℝ), -2], [0, 5]].Perm [[(0 : ℝ), 5], [1, -2]]) ∧
    (merge_channels [[(1 : ℝ), -2], [0, 5]] = merge_channels [[(0 : ℝ), 5], [1, -2]] ∧
      ∀ v ∈ merge_channels [[(1 : ℝ), -2], [0, 5]], 0 ≤ v) :=
  ⟨List.Perm.swap _ _ _,
    c9_channel_reduction _ _ (List.Perm.swap _ _ _) (by
      intro ch hch
      rcases List.mem_cons.mp hch with rfl | hch2
      · rfl
      · rcases List.mem_singleton.mp hch2 with rfl
        rfl)⟩

/-! ## The loudness normalizer: range facts and evaluations -/

theorem npInterp2_range (c upper : ℝ) :
    0 ≤ npInterp2 c 0 upper 0 254 ∧ npInterp2 c 0 upper 0 254 ≤ 254 := by
  rw [npInterp2]
  split_ifs with h1 h2
  · norm_num
  · norm_num
  · push_neg at h1 h2
    have hupper : 0 < upper := lt_of_le_of_lt h1 h2
    constructor
    · have : 0 ≤ (254 - 0) * (c - 0) / (upper - 0) := by
        apply div_nonneg
        · nlinarith
        · linarith
      linarith
    · have h3 : (254 - 0) * (c - 0) / (upper - 0) ≤ 254 := by
        rw [div_le_iff₀ (by linarith : (0 : ℝ) < upper - 0)]
        nlinarith
      linarith

theorem toInt16_range (x : ℝ) (h0 : 0 ≤ x) (h254 : x ≤ 254) :
    0 ≤ toInt16 x ∧ toInt16 x ≤ 254 := by
  rw [toInt16, if_pos h0]
  constructor
  · exact Int.floor_nonneg.mpr h0
  · have := Int.floor_le_floor h254
    simpa using this

/-- C3, amended: every LoudnessLevel the normalizer emits lies in
`[0, 255]`; without `flatten_volume` it lies in
`[0, pwm_duty_cycle_max_value] = [0, 254]`, but with `flatten_volume` every
level is either 0 or 255 — and 255 exceeds `pwm_duty_cycle_max_value`, so
the claimed bound `[0, maxDutyCycle]` holds only for the un-flattened
setting. -/
theorem c3_loudness_range (mods : List ℝ) (flatten_volume : Bool) :
    ∀ v ∈ normalize mods flatten_volume,
      0 ≤ v ∧ v ≤ 255 ∧
      (flatten_volume = false → v ≤ pwm_duty_cycle_max_value) ∧
      (flatten_volume = true → v = 0 ∨ v = 255) := by
  intro v hv
  rw [normalize] at hv
  have hbase : ∀ w ∈ (mods.map fun m => Real.log (m + 1)).map fun c =>
      toInt16 (npInterp2 c 0 (listMax (mods.map fun m => Real.log (m + 1))) 0
        (pwm_duty_cycle_max_value : ℝ)), 0 ≤ w ∧ w ≤ 254 := by
    intro w hw
    obtain ⟨c, _, rfl⟩ := List.mem_map.mp hw
    have hcast : ((pwm_duty_cycle_max_value : ℤ) : ℝ) = 254 := by
      rw [pwm_duty_cycle_max_value]; norm_num
    rw [hcast]
    obtain ⟨ha, hb⟩ := npInterp2_range c (listMax (mods.map fun m => Real.log (m + 1)))
    exact toInt16_range _ ha hb
  cases flatten_volume with
  | false =>
    simp only [if_neg (by simp : ¬(false = true))] at hv
    obtain ⟨ha, hb⟩ := hbase v hv
    refine ⟨ha, by omega, fun _ => ?_, by simp⟩
    rw [pwm_duty_cycle_max_value]
    omega
  | true =>
    simp only [if_pos rfl] at hv
    obtain ⟨w, hw, rfl⟩ := List.mem_map.mp hv
    obtain ⟨ha, hb⟩ := hbase w hw
    rw [npDigitizeRight01, if_neg (by omega : ¬(255 : ℤ) < w)]
    by_cases h0 : (0 : ℤ) < w
    · rw [if_pos h0]
      norm_num
    · rw [if_neg h0]
      norm_num

theorem normalize_zero_false : normalize [0, 0] false = [254, 254] := by
  have hlog : Real.log ((0 : ℝ) + 1) = 0 := by
    norm_num
  have hmax : listMax [(0 : ℝ), 0] = 0 := max_self 0
  have hinterp : npInterp2 0 0 0 0 ((pwm_duty_cycle_max_value : ℤ) : ℝ) = 254 := by
    rw [npInterp2, if_neg (by norm_num), if_pos (le_refl 0), pwm_duty_cycle_max_value]
    norm_num
  have htrunc : toInt16 254 = 254 := by
    rw [toInt16, if_pos (by norm_num : (0 : ℝ) ≤ 254)]
    norm_num
  rw [normalize]
  simp only [List.map_cons, List.map_nil, hlog, hmax, hinterp, htrunc]
  simp

theorem normalize_zero_true : normalize [0, 0] true = [255, 255] := by
  have hlog : Real.log ((0 : ℝ) + 1) = 0 := by
    norm_num
  have hmax : listMax [(0 : ℝ), 0] = 0 := max_self 0
  have hinterp : npInterp2 0 0 0 0 ((pwm_duty_cycle_max_value : ℤ) : ℝ) = 254 := by
    rw [npInterp2, if_neg (by norm_num), if_pos (le_refl 0), pwm_duty_cycle_max_value]
    norm_num
  have htrunc : toInt16 254 = 254 := by
    rw [toInt16, if_pos (by norm_num : (0 : ℝ) ≤ 254)]
    norm_num
  have hdig : npDigitizeRight01 254 * 255 = 255 := by
    rw [npDigitizeRight01]
    norm_num
  rw [normalize]
  simp only [List.map_cons, List.map_nil, hlog, hmax, hinterp, htrunc, hdig]
  simp

/-- C3, witness: the flattened level 255 produced from the all-zero
magnitude pair satisfies the amended bounds. -/
theorem c3_witness :
    (255 : ℤ) ∈ normalize [0, 0] true ∧
    (0 ≤ (255 : ℤ) ∧ (255 : ℤ) ≤ 255 ∧
      (true = false → (255 : ℤ) ≤ pwm_duty_cycle_max_value) ∧
      (true = true → (255 : ℤ) = 0 ∨ (255 : ℤ) = 255)) :=
  ⟨by rw [normalize_zero_true]; simp,
    c3_loudness_range [0, 0] true 255 (by rw [normalize_zero_true]; simp)⟩

/-! ## The frequency quantizer: counting lemmas and bin evaluations -/

theorem countLe_le_length (bins : List ℝ) (x : ℝ) : countLe bins x ≤ bins.length := by
  induction bins with
  | nil => simp [countLe]
  | cons b bs ih =>
    rw [countLe]
    simp only [List.length_cons]
    split_ifs <;> omega

theorem countGt_le_length (bins : List ℝ) (x : ℝ) : countGt bins x ≤ bins.length := by
  induction bins with
  | nil => simp [countGt]
  | cons b bs ih =>
    rw [countGt]
    simp only [List.length_cons]
    split_ifs <;> omega

theorem countGt_append (l1 l2 : List ℝ) (x : ℝ) :
    countGt (l1 ++ l2) x = countGt l1 x + countGt l2 x := by
  induction l1 with
  | nil => simp [countGt]
  | cons b bs ih =>
    rw [List.cons_append, countGt, ih, countGt]
    omega

theorem rpow_32 (j : ℕ) : (32 : ℝ) ^ ((j : ℝ) / 5) = 2 ^ j := by
  have h1 : (32 : ℝ) = (2 : ℝ) ^ ((5 : ℕ) : ℝ) := by
    rw [Real.rpow_natCast]
    norm_num
  rw [h1, ← Real.rpow_mul (by norm_num : (0 : ℝ) ≤ 2)]
  rw [show ((5 : ℕ) : ℝ) * ((j : ℝ) / 5) = (j : ℝ) by push_cast; ring]
  exact Real.rpow_natCast 2 j

theorem rpow_32_one : (32 : ℝ) ^ ((1 : ℝ) / 5) = 2 := by
  rw [show ((1 : ℝ) / 5) = (((1 : ℕ) : ℝ) / 5) by norm_num, rpow_32 1]
  norm_num

theorem rpow_32_two : (32 : ℝ) ^ ((2 : ℝ) / 5) = 4 := by
  rw [show ((2 : ℝ) / 5) = (((2 : ℕ) : ℝ) / 5) by norm_num, rpow_32 2]
  norm_num

theorem rpow_32_three : (32 : ℝ) ^ ((3 : ℝ) / 5) = 8 := by
  rw [show ((3 : ℝ) / 5) = (((3 : ℕ) : ℝ) / 5) by norm_num, rpow_32 3]
  norm_num

theorem rpow_32_four : (32 : ℝ) ^ ((4 : ℝ) / 5) = 16 := by
  rw [show ((4 : ℝ) / 5) = (((4 : ℕ) : ℝ) / 5) by norm_num, rpow_32 4]
  norm_num

theorem npGeomspace_1_32 :
    npGeomspace 1 32 available_freqs.length = .ok [1, 2, 4, 8, 16, 32] := by
  rw [show available_freqs.length = 6 from rfl]
  rw [npGeomspace, if_neg (by norm_num : ¬(1 : ℝ) * 32 ≤ 0)]
  congr 1
  rw [show List.range 6 = [0, 1, 2, 3, 4, 5] from rfl]
  simp only [List.map_cons, List.map_nil]
  have h0 : (((0 : ℕ) : ℝ) / (((6 : ℕ) : ℝ) - 1)) = 0 := by norm_num
  have h1 : (((1 : ℕ) : ℝ) / (((6 : ℕ) : ℝ) - 1)) = 1 / 5 := by norm_num
  have h2 : (((2 : ℕ) : ℝ) / (((6 : ℕ) : ℝ) - 1)) = 2 / 5 := by norm_num
  have h3 : (((3 : ℕ) : ℝ) / (((6 : ℕ) : ℝ) - 1)) = 3 / 5 := by norm_num
  have h4 : (((4 : ℕ) : ℝ) / (((6 : ℕ) : ℝ) - 1)) = 4 / 5 := by norm_num
  have h5 : (((5 : ℕ) : ℝ) / (((6 : ℕ) : ℝ) - 1)) = 1 := by norm_num
  rw [h0, h1, h2, h3, h4, h5]
  rw [show ((32 : ℝ) / 1) = 32 by norm_num]
  rw [Real.rpow_zero, Real.rpow_one, rpow_32_one, rpow_32_two, rpow_32_three,
    rpow_32_four]
  norm_num

theorem npGeomspace_half_16 :
    npGeomspace (1 / 2) 16 available_freqs.length =
      .ok [1 / 2, 1, 2, 4, 8, 16] := by
  rw [show available_freqs.length = 6 from rfl]
  rw [npGeomspace, if_neg (by norm_num : ¬(1 / 2 : ℝ) * 16 ≤ 0)]
  congr 1
  rw [show List.range 6 = [0, 1, 2, 3, 4, 5] from rfl]
  simp only [List.map_cons, List.map_nil]
  have h0 : (((0 : ℕ) : ℝ) / (((6 : ℕ) : ℝ) - 1)) = 0 := by norm_num
  have h1 : (((1 : ℕ) : ℝ) / (((6 : ℕ) : ℝ) - 1)) = 1 / 5 := by norm_num
  have h2 : (((2 : ℕ) : ℝ) / (((6 : ℕ) : ℝ) - 1)) = 2 / 5 := by norm_num
  have h3 : (((3 : ℕ) : ℝ) / (((6 : ℕ) : ℝ) - 1)) = 3 / 5 := by norm_num
  have h4 : (((4 : ℕ) : ℝ) / (((6 : ℕ) : ℝ) - 1)) = 4 / 5 := by norm_num
  have h5 : (((5 : ℕ) : ℝ) / (((6 : ℕ) : ℝ) - 1)) = 1 := by norm_num
  rw [h0, h1, h2, h3, h4, h5]
  rw [show ((16 : ℝ) / (1 / 2)) = 32 by norm_num]
  rw [Real.rpow_zero, Real.rpow_one, rpow_32_one, rpow_32_two, rpow_32_three,
    rpow_32_four]
  norm_num

theorem listMin_pair (a b : ℝ) : listMin [a, b] = min a b := rfl

theorem listMax_pair (a b : ℝ) : listMax [a, b] = max a b := rfl

theorem quantize_cons (f : ℝ) (fs : List ℝ) :
    quantize (f :: fs) =
      (npGeomspace (listMin (f :: fs) + 1) (listMax (f :: fs))
        available_freqs.length).bind fun bins0 =>
          npDigitize (f :: fs) (bins0.set 0 0).reverse := rfl

/-- Silent (or DC-dominated) audio makes every computed dominant frequency
0, so the quantizer calls `np.geomspace(1, 0, 6)`, which raises
ValueError. -/
theorem quantize_zero_zero :
    quantize [0, 0] = .error "Geometric sequence cannot include zero" := by
  rw [quantize_cons]
  rw [show listMin [(0 : ℝ), 0] + 1 = 1 by rw [listMin_pair]; norm_num]
  rw [show listMax [(0 : ℝ), 0] = 0 by rw [listMax_pair]; norm_num]
  rw [npGeomspace, if_pos (by norm_num : (1 : ℝ) * 0 ≤ 0)]
  rfl

theorem quantize_zero_32 : quantize [0, 32] = .ok [5, 0] := by
  rw [quantize_cons]
  rw [show listMin [(0 : ℝ), 32] + 1 = 1 by rw [listMin_pair]; norm_num]
  rw [show listMax [(0 : ℝ), 32] = 32 by rw [listMax_pair]; norm_num]
  rw [npGeomspace_1_32, except_bind_ok]
  rw [show (([(1 : ℝ), 2, 4, 8, 16, 32].set 0 0).reverse) = [32, 16, 8, 4, 2, 0]
    from rfl]
  rw [npDigitize]
  rw [if_neg ?hnasc, if_pos ?hdesc]
  case hnasc =>
    intro h
    rw [List.chain'_cons] at h
    norm_num at h
  case hdesc =>
    norm_num [List.chain'_cons]
  congr 1
  simp only [List.map_cons, List.map_nil]
  norm_num [countGt]

theorem quantize_neg_half_16 : quantize [-(1 / 2), 16] = .ok [6, 0] := by
  rw [quantize_cons]
  rw [show listMin [-(1 / 2 : ℝ), 16] + 1 = 1 / 2 by rw [listMin_pair]; norm_num]
  rw [show listMax [-(1 / 2 : ℝ), 16] = 16 by rw [listMax_pair]; norm_num]
  rw [npGeomspace_half_16, except_bind_ok]
  rw [show (([(1 / 2 : ℝ), 1, 2, 4, 8, 16].set 0 0).reverse) = [16, 8, 4, 2, 1, 0]
    from rfl]
  rw [npDigitize]
  rw [if_neg ?hnasc, if_pos ?hdesc]
  case hnasc =>
    intro h
    rw [List.chain'_cons] at h
    norm_num at h
  case hdesc =>
    norm_num [List.chain'_cons]
  congr 1
  simp only [List.map_cons, List.map_nil]
  norm_num [countGt]

/-! ## Claims C4 and C6: the frequency quantizer -/

/-- C4, counterexample: for the dominant-frequency sequence `[-1/2, 16]`
(the spec itself notes dominant frequencies may be negative), the quantizer
returns bucket 6 = K for the negative window — outside the claimed range
`[0, K-1] = [0, 5]`. -/
theorem c4_counterexample :
    quantize [-(1 / 2), 16] = .ok [6, 0] ∧
    ¬(6 ≤ available_freqs.length - 1) := by
  refine ⟨quantize_neg_half_16, ?_⟩
  intro h
  rw [show available_freqs.length = 6 from rfl] at h
  omega

/-- C4, amended: whenever the quantizer returns at all, every bucket lies
in `[0, K]` (where `K = 6` is the number of available PWM frequencies);
the claimed range `[0, K-1]` does hold for every window whose dominant
frequency is nonnegative — the out-of-range index `K` arises exactly from
negative dominant frequencies, which fall below the forced 0 edge. -/
theorem c4_bucket_range (fs : List ℝ) (bs : List ℕ)
    (hok : quantize fs = .ok bs) :
    (∀ b ∈ bs, b ≤ available_freqs.length) ∧
    ((∀ x ∈ fs, 0 ≤ x) → ∀ b ∈ bs, b ≤ available_freqs.length - 1) := by
  cases fs with
  | nil =>
    rw [quantize] at hok
    exact Except.noConfusion hok
  | cons f0 rest =>
    rw [quantize_cons] at hok
    set s := listMin (f0 :: rest) + 1 with hs
    set e := listMax (f0 :: rest) with he
    rw [npGeomspace] at hok
    by_cases hse : s * e ≤ 0
    · rw [if_pos hse, except_bind_error] at hok
      exact Except.noConfusion hok
    · rw [if_neg hse] at hok
      rw [except_bind_ok] at hok
      push_neg at hse
      rw [show available_freqs.length = 6 from rfl] at hok
      rw [show List.range 6 = [0, 1, 2, 3, 4, 5] from rfl] at hok
      simp only [List.map_cons, List.map_nil] at hok
      rw [show ∀ a0 a1 a2 a3 a4 a5 : ℝ,
          (([a0, a1, a2, a3, a4, a5].set 0 0).reverse) = [a5, a4, a3, a2, a1, 0]
        from fun _ _ _ _ _ _ => rfl] at hok
      rw [npDigitize] at hok
      have hratio : 0 < e / s := by
        rcases mul_pos_iff.mp hse with ⟨hs0, he0⟩ | ⟨hs0, he0⟩
        · exact div_pos he0 hs0
        · exact div_pos_of_neg_of_neg he0 hs0
      by_cases hasc : List.Chain' (fun a b => a ≤ b)
          [s * (e / s) ^ (((5 : ℕ) : ℝ) / (((6 : ℕ) : ℝ) - 1)),
            s * (e / s) ^ (((4 : ℕ) : ℝ) / (((6 : ℕ) : ℝ) - 1)),
            s * (e / s) ^ (((3 : ℕ) : ℝ) / (((6 : ℕ) : ℝ) - 1)),
            s * (e / s) ^ (((2 : ℕ) : ℝ) / (((6 : ℕ) : ℝ) - 1)),
            s * (e / s) ^ (((1 : ℕ) : ℝ) / (((6 : ℕ) : ℝ) - 1)), 0]
      · rw [if_pos hasc] at hok
        have hbs : bs = (f0 :: rest).map fun x => countLe _ x :=
          ((Except.ok.injEq _ _).mp hok).symm
        constructor
        · intro b hb
          rw [hbs] at hb
          obtain ⟨x, _, rfl⟩ := List.mem_map.mp hb
          rw [show available_freqs.length = 6 from rfl]
          exact countLe_le_length _ x
        · intro hx
          exfalso
          simp only [List.chain'_cons, List.chain'_singleton, and_true] at hasc
          have hA1 : s * (e / s) ^ (((1 : ℕ) : ℝ) / (((6 : ℕ) : ℝ) - 1)) ≤ 0 :=
            hasc.2.2.2.2
          have hpow : 0 < (e / s) ^ (((1 : ℕ) : ℝ) / (((6 : ℕ) : ℝ) - 1)) :=
            Real.rpow_pos_of_pos hratio _
          rcases mul_pos_iff.mp hse with ⟨hs0, he0⟩ | ⟨hs0, he0⟩
          · exact absurd hA1 (not_le.mpr (mul_pos hs0 hpow))
          · have hf0 : (0 : ℝ) ≤ f0 := hx f0 (List.mem_cons_self _ _)
            have hfe : f0 ≤ e := le_listMax _ f0 (List.mem_cons_self _ _)
            linarith
      · rw [if_neg hasc] at hok
        by_cases hdesc : List.Chain' (fun a b => b ≤ a)
            [s * (e / s) ^ (((5 : ℕ) : ℝ) / (((6 : ℕ) : ℝ) - 1)),
              s * (e / s) ^ (((4 : ℕ) : ℝ) / (((6 : ℕ) : ℝ) - 1)),
              s * (e / s) ^ (((3 : ℕ) : ℝ) / (((6 : ℕ) : ℝ) - 1)),
              s * (e / s) ^ (((2 : ℕ) : ℝ) / (((6 : ℕ) : ℝ) - 1)),
              s * (e / s) ^ (((1 : ℕ) : ℝ) / (((6 : ℕ) : ℝ) - 1)), 0]
        · rw [if_pos hdesc] at hok
          have hbs : bs = (f0 :: rest).map fun x => countGt _ x :=
            ((Except.ok.injEq _ _).mp hok).symm
          constructor
          · intro b hb
            rw [hbs] at hb
            obtain ⟨x, _, rfl⟩ := List.mem_map.mp hb
            rw [show available_freqs.length = 6 from rfl]
            exact countGt_le_length _ x
          · intro hx b hb
            rw [hbs] at hb
            obtain ⟨x, hxmem, rfl⟩ := List.mem_map.mp hb
            have hx0 : (0 : ℝ) ≤ x := hx x hxmem
            rw [show available_freqs.length = 6 from rfl]
            rw [show ([s * (e / s) ^ (((5 : ℕ) : ℝ) / (((6 : ℕ) : ℝ) - 1)),
                s * (e / s) ^ (((4 : ℕ) : ℝ) / (((6 : ℕ) : ℝ) - 1)),
                s * (e / s) ^ (((3 : ℕ) : ℝ) / (((6 : ℕ) : ℝ) - 1)),
                s * (e / s) ^ (((2 : ℕ) : ℝ) / (((6 : ℕ) : ℝ) - 1)),
                s * (e / s) ^ (((1 : ℕ) : ℝ) / (((6 : ℕ) : ℝ) - 1)), 0] : List ℝ) =
              [s * (e / s) ^ (((5 : ℕ) : ℝ) / (((6 : ℕ) : ℝ) - 1)),
                s * (e / s) ^ (((4 : ℕ) : ℝ) / (((6 : ℕ) : ℝ) - 1)),
                s * (e / s) ^ (((3 : ℕ) : ℝ) / (((6 : ℕ) : ℝ) - 1)),
                s * (e / s) ^ (((2 : ℕ) : ℝ) / (((6 : ℕ) : ℝ) - 1)),
                s * (e / s) ^ (((1 : ℕ) : ℝ) / (((6 : ℕ) : ℝ) - 1))] ++ [0] from rfl]
            rw [countGt_append]
            have h0 : countGt [(0 : ℝ)] x = 0 := by
              rw [countGt, if_neg (by linarith : ¬x < 0), countGt]
            have h5 : countGt [s * (e / s) ^ (((5 : ℕ) : ℝ) / (((6 : ℕ) : ℝ) - 1)),
                s * (e / s) ^ (((4 : ℕ) : ℝ) / (((6 : ℕ) : ℝ) - 1)),
                s * (e / s) ^ (((3 : ℕ) : ℝ) / (((6 : ℕ) : ℝ) - 1)),
                s * (e / s) ^ (((2 : ℕ) : ℝ) / (((6 : ℕ) : ℝ) - 1)),
                s * (e / s) ^ (((1 : ℕ) : ℝ) / (((6 : ℕ) : ℝ) - 1))] x ≤ 5 :=
              countGt_le_length _ x
            omega
        · rw [if_neg hdesc] at hok
          exact Except.noConfusion hok

/-- C4, witness: the amended statement evaluated on the all-nonnegative
dominant-frequency sequence `[0, 32]`, whose buckets `[5, 0]` stay within
`[0, K-1]`. -/
theorem c4_witness :
    quantize [0, 32] = .ok [5, 0] ∧
    ((∀ b ∈ [5, 0], b ≤ available_freqs.length) ∧
      ((∀ x ∈ [(0 : ℝ), 32], 0 ≤ x) →
        ∀ b ∈ [5, 0], b ≤ available_freqs.length - 1)) :=
  ⟨quantize_zero_32, c4_bucket_range [0, 32] [5, 0] quantize_zero_32⟩

/-- C6: on a constant dominant-frequency sequence (here the ubiquitous
all-zero one: `min = max = 0`), the quantizer does not fall back to a
single bucket — `np.geomspace(min+1, max, 6) = np.geomspace(1, 0, 6)`
raises ValueError, so the stage fails instead of degrading gracefully. -/
theorem c6_constant_frequency_error :
    quantize (List.replicate 2 (0 : ℝ)) =
      .error "Geometric sequence cannot include zero" := by
  rw [show List.replicate 2 (0 : ℝ) = [0, 0] from rfl]
  exact quantize_zero_zero

/-! ## Evaluating the analyzer and the whole pipeline on concrete inputs -/

theorem pyRound_intCast (n : ℤ) : pyRound (n : ℝ) = n := by
  rw [pyRound, Int.floor_intCast, if_pos]
  norm_num

theorem pyRound_one : pyRound (1 : ℝ) = 1 := by
  rw [show (1 : ℝ) = ((1 : ℤ) : ℝ) by norm_num, pyRound_intCast]

theorem windowCount_silent : windowCount [[(0 : ℝ)]] 10000 = 1 := by
  rw [windowCount]
  rw [show ([[(0 : ℝ)]].headD []).length = 1 from rfl]
  rw [show playback_sampling_rate = 10000 from rfl]
  rw [show (((1 : ℕ) : ℝ) / 10000 * ((10000 : ℕ) : ℝ)) = 1 by norm_num]
  rw [pyRound_one]
  rfl

theorem merge_silent : merge_channels [[(0 : ℝ)]] = [0] := by
  rw [merge_channels]
  rw [show ([[(0 : ℝ)]].headD []).length = 1 from rfl]
  rw [show List.range 1 = [0] from rfl]
  simp only [List.map_cons, List.map_nil]
  rw [show ([(0 : ℝ)].getD 0 0) = 0 from rfl]
  rw [show listMax [(0 : ℝ)] = 0 from rfl]
  norm_num

theorem chunksOf_silent : chunksOf [[(0 : ℝ)]] 10000 = .ok [[0]] := by
  rw [chunksOf, windowCount_silent, if_neg (by norm_num), merge_silent]
  rfl

theorem npFFT_silent : npFFT [(0 : ℝ)] = [0] := by
  rw [npFFT]
  rw [show ([(0 : ℝ)]).length = 1 from rfl]
  rw [show List.range 1 = [0] from rfl]
  simp only [List.map_cons, List.map_nil]
  rw [show ([(0 : ℝ)].getD 0 0) = 0 from rfl]
  norm_num

theorem fftfreq_one : fftfreq 1 10000 = [0] := by
  rw [fftfreq]
  rw [show List.range 1 = [0] from rfl]
  simp only [List.map_cons, List.map_nil]
  rw [if_pos (by norm_num : (0 : ℕ) ≤ (1 - 1) / 2)]
  norm_num

theorem dominant_silent :
    get_dominant_freq_and_module [(0 : ℝ)] 10000 1 = .ok (0, 0) := by
  have hmods : (npFFT [(0 : ℝ)]).map Complex.abs = [0] := by
    rw [npFFT_silent]
    simp
  rw [get_dominant_freq_and_module, hmods]
  rw [pyRound_one]
  rw [show ((1 : ℤ).toNat) = 1 from rfl]
  rw [fftfreq_one]
  rw [show listMax [(0 : ℝ)] = 0 from rfl]
  rw [show argmaxAux 0 [(0 : ℝ)] = 0 by rw [argmaxAux, if_pos le_rfl]]
  rfl

theorem framesOf_silent : framesOf [[(0 : ℝ)]] 10000 = .ok [(0, 0)] := by
  rw [framesOf, chunksOf_silent, except_bind_ok]
  rw [show (10000 : ℝ) / (playback_sampling_rate : ℝ) = 1 by
    rw [show playback_sampling_rate = 10000 from rfl]; norm_num]
  rw [List.mapM_cons, dominant_silent, List.mapM_nil]
  rfl

theorem consumedFreqs_silent (junkF : ℝ) :
    consumedFreqs [[(0 : ℝ)]] 10000 junkF = .ok [0, junkF] := by
  rw [consumedFreqs, framesOf_silent]
  rfl

theorem consumedMods_silent (junkM : ℝ) :
    consumedMods [[(0 : ℝ)]] 10000 junkM = .ok [0, junkM] := by
  rw [consumedMods, framesOf_silent]
  rfl

/-- With both uninitialised cells equal to 0, the silent one-sample
waveform crashes the quantizer, for either flatten setting. -/
theorem pipeline_silent_junk0 (flatten_volume : Bool) :
    main_pipeline [[(0 : ℝ)]] 10000 flatten_volume 0 0 =
      .error "Geometric sequence cannot include zero" := by
  rw [main_pipeline, consumedFreqs_silent, except_bind_ok, consumedMods_silent,
    except_bind_ok, quantize_zero_zero]
  rfl

/-- With the uninitialised frequency cell holding 32 instead, the same
waveform converts successfully (flatten off): the junk cell stretches the
frequency range to `[0, 32]`, the real window lands in bucket 5 and the
junk window in bucket 0, and the degenerate all-zero loudness rescale
produces 254 everywhere. -/
theorem pipeline_silent_junk32_false :
    main_pipeline [[(0 : ℝ)]] 10000 false 32 0 =
      .ok [(1000, 5, 254), (0, 0, 254)] := by
  rw [main_pipeline, consumedFreqs_silent, except_bind_ok, consumedMods_silent,
    except_bind_ok, quantize_zero_32, except_bind_ok, normalize_zero_false,
    windowCount_silent]
  rfl

theorem pipeline_silent_junk32_true :
    main_pipeline [[(0 : ℝ)]] 10000 true 32 0 =
      .ok [(1000, 5, 255), (0, 0, 255)] := by
  rw [main_pipeline, consumedFreqs_silent, except_bind_ok, consumedMods_silent,
    except_bind_ok, quantize_zero_32, except_bind_ok, normalize_zero_true,
    windowCount_silent]
  rfl

/-! ## The chunking geometry of the spectral analyzer -/

theorem mapM_ok_length {α β : Type} (g : α → Except String β) :
    ∀ (l : List α) (l2 : List β), l.mapM g = .ok l2 → l2.length = l.length := by
  intro l
  induction l with
  | nil =>
    intro l2 h
    rw [List.mapM_nil] at h
    cases h
    rfl
  | cons a as ih =>
    intro l2 h
    rw [List.mapM_cons] at h
    cases hfa : g a with
    | error er =>
      rw [hfa] at h
      have h2 : (Except.error er : Except String (List β)) = .ok l2 := h
      exact Except.noConfusion h2
    | ok b =>
      rw [hfa] at h
      cases hrest : as.mapM g with
      | error er =>
        rw [hrest] at h
        have h2 : (Except.error er : Except String (List β)) = .ok l2 := h
        exact Except.noConfusion h2
      | ok bs =>
        rw [hrest] at h
        have h2 : (Except.ok (b :: bs) : Except String (List β)) = .ok l2 := h
        cases h2
        simp [ih bs hrest]

theorem npArraySplit_length (l : List ℝ) (n : ℕ) :
    (npArraySplit l n).length = n := by
  rw [npArraySplit, List.length_map, List.length_range]

theorem npArraySplit_sizes (l : List ℝ) (n : ℕ) (hn : 0 < n) :
    ∀ c ∈ npArraySplit l n,
      c.length = l.length / n ∨ c.length = l.length / n + 1 := by
  intro c hc
  rw [npArraySplit] at hc
  obtain ⟨i, hi, rfl⟩ := List.mem_map.mp hc
  rw [List.mem_range] at hi
  have hql : n * (l.length / n) + l.length % n = l.length := Nat.div_add_mod _ _
  have hrn : l.length % n < n := Nat.mod_lt _ hn
  by_cases hir : i < l.length % n
  · right
    rw [if_pos hir, List.length_take, List.length_drop]
    rw [min_eq_left (le_of_lt hir)]
    apply min_eq_left
    have h1 : (i + 1) * (l.length / n) ≤ n * (l.length / n) :=
      Nat.mul_le_mul_right _ (by omega)
    have key : (i * (l.length / n) + i) + (l.length / n + 1) ≤ l.length := by
      calc (i * (l.length / n) + i) + (l.length / n + 1)
          = (i + 1) * (l.length / n) + (i + 1) := by ring
        _ ≤ n * (l.length / n) + l.length % n := Nat.add_le_add h1 (by omega)
        _ = l.length := hql
    exact Nat.le_sub_of_add_le (by linarith [key])
  · left
    rw [if_neg hir, List.length_take, List.length_drop]
    rw [min_eq_right (by omega : l.length % n ≤ i)]
    apply min_eq_left
    have h1 : (i + 1) * (l.length / n) ≤ n * (l.length / n) :=
      Nat.mul_le_mul_right _ (by omega)
    have key : (i * (l.length / n) + l.length % n) + l.length / n ≤ l.length := by
      calc (i * (l.length / n) + l.length % n) + l.length / n
          = (i + 1) * (l.length / n) + l.length % n := by ring
        _ ≤ n * (l.length / n) + l.length % n := Nat.add_le_add_right h1 _
        _ = l.length := hql
    exact Nat.le_sub_of_add_le (by linarith [key])

/-! ## Claims C3 (counterexample), C5, C7 and C8: the composed pipeline -/

/-- C3, counterexample: a complete pipeline run (one-sample silent
waveform, uninitialised frequency cell 32, flatten on) emits tone events
whose LoudnessLevel is 255, exceeding
`maxDutyCycle = pwm_duty_cycle_max_value = 254` — so with `flattenVolume`
enabled the claimed range `[0, maxDutyCycle]` is violated. -/
theorem c3_counterexample :
    main_pipeline [[(0 : ℝ)]] 10000 true 32 0 =
      .ok [(1000, 5, 255), (0, 0, 255)] ∧
    ¬((255 : ℤ) ≤ pwm_duty_cycle_max_value) := by
  refine ⟨pipeline_silent_junk32_true, ?_⟩
  rw [pwm_duty_cycle_max_value]
  omega

/-- C5: on a silent input the pipeline does not complete with all-zero
loudness.  The quantizer sees the all-zero dominant frequencies and raises
(ValueError from `np.geomspace(1, 0)`), for either flatten setting; and the
normalizer — run on the all-zero magnitudes the silent input produces —
yields 254 (un-flattened) or 255 (flattened) everywhere, never 0, because
the degenerate `np.interp` x-range `(0, 0)` maps every value to the upper
endpoint. -/
theorem c5_silent_behavior :
    main_pipeline [[(0 : ℝ)]] 10000 false 0 0 =
      .error "Geometric sequence cannot include zero" ∧
    main_pipeline [[(0 : ℝ)]] 10000 true 0 0 =
      .error "Geometric sequence cannot include zero" ∧
    normalize [0, 0] false = [254, 254] ∧
    normalize [0, 0] true = [255, 255] :=
  ⟨pipeline_silent_junk0 false, pipeline_silent_junk0 true,
    normalize_zero_false, normalize_zero_true⟩

/-- C7: the conversion is not a function of the waveform, hardware profile
and flatten flag alone — it also depends on the contents of the
uninitialised final cells of the `np.empty(resampled_data_size + 1)`
arrays, which the quantizer, normalizer and encoder all consume.  Two runs
over the identical waveform whose junk frequency cell happens to hold 0
resp. 32 disagree (the first even crashes). -/
theorem c7_uninitialized_memory_dependence :
    main_pipeline [[(0 : ℝ)]] 10000 false 0 0 ≠
      main_pipeline [[(0 : ℝ)]] 10000 false 32 0 := by
  rw [pipeline_silent_junk0 false, pipeline_silent_junk32_false]
  intro h
  exact Except.noConfusion h

/-- C8, counterexample: what the quantizer consumes is not the analyzer's
`N` frames — it is those frames plus the uninitialised trailing cell, a
list of length `N + 1` (here: `[0, 0]` instead of the single computed
frequency `[0]`). -/
theorem c8_counterexample :
    consumedFreqs [[(0 : ℝ)]] 10000 0 ≠
      (framesOf [[(0 : ℝ)]] 10000).map (List.map Prod.fst) := by
  rw [consumedFreqs_silent, framesOf_silent, except_map_ok]
  intro h
  simp at h

/-- C8, amended: the analyzer does compute exactly
`N = round(duration × playbackRate)` frames, one per chunk of the
`np.array_split` partition whose chunk lengths differ by at most one — but
the array handed to the downstream stages carries those `N` entries plus
one uninitialised cell, so downstream consumes `N + 1` entries, not `N`. -/
theorem c8_analyzer_shape (samples : List (List ℝ)) (sampling_rate junkF : ℝ)
    (frames : List (ℝ × ℝ))
    (hok : framesOf samples sampling_rate = .ok frames) :
    0 < windowCount samples sampling_rate ∧
    frames.length = windowCount samples sampling_rate ∧
    (∀ c ∈ npArraySplit (merge_channels samples) (windowCount samples sampling_rate),
      c.length = (merge_channels samples).length / windowCount samples sampling_rate ∨
      c.length =
        (merge_channels samples).length / windowCount samples sampling_rate + 1) ∧
    consumedFreqs samples sampling_rate junkF = .ok (frames.map Prod.fst ++ [junkF]) ∧
    (frames.map Prod.fst ++ [junkF]).length = windowCount samples sampling_rate + 1 := by
  have hok2 := hok
  rw [framesOf, chunksOf] at hok2
  by_cases hN : windowCount samples sampling_rate = 0
  · rw [if_pos hN, except_bind_error] at hok2
    exact Except.noConfusion hok2
  · rw [if_neg hN, except_bind_ok] at hok2
    have hlen := mapM_ok_length _ _ _ hok2
    refine ⟨Nat.pos_of_ne_zero hN, ?_, ?_, ?_, ?_⟩
    · rw [hlen, npArraySplit_length]
    · exact npArraySplit_sizes _ _ (Nat.pos_of_ne_zero hN)
    · rw [consumedFreqs, hok]
      rfl
    · rw [List.length_append, List.length_map, hlen, npArraySplit_length]
      rfl

/-- C8, witness: the amended statement evaluated on the one-sample
waveform: one frame is computed, but the consumed array is `[0, junkF]` of
length 2. -/
theorem c8_witness :
    framesOf [[(0 : ℝ)]] 10000 = .ok [(0, 0)] ∧
    (0 < windowCount [[(0 : ℝ)]] 10000 ∧
      [((0 : ℝ), (0 : ℝ))].length = windowCount [[(0 : ℝ)]] 10000 ∧
      (∀ c ∈ npArraySplit (merge_channels [[(0 : ℝ)]]) (windowCount [[(0 : ℝ)]] 10000),
        c.length =
          (merge_channels [[(0 : ℝ)]]).length / windowCount [[(0 : ℝ)]] 10000 ∨
        c.length =
          (merge_channels [[(0 : ℝ)]]).length / windowCount [[(0 : ℝ)]] 10000 + 1) ∧
      consumedFreqs [[(0 : ℝ)]] 10000 0 =
        .ok ([((0 : ℝ), (0 : ℝ))].map Prod.fst ++ [0]) ∧
      ([((0 : ℝ), (0 : ℝ))].map Prod.fst ++ [(0 : ℝ)]).length =
        windowCount [[(0 : ℝ)]] 10000 + 1) :=
  ⟨framesOf_silent, c8_analyzer_shape [[(0 : ℝ)]] 10000 0 [(0, 0)] framesOf_silent⟩

end Audio2Tones
